import Mathlib

/-!
Verification development for the day-07 program (`src/day-07/src/main.rs`):
a nom-based parser for a `cd`/`ls` command transcript, an arena-backed
filesystem tree builder, and a recursive post-order size aggregator.

Modelling conventions:
* nom parsers over `&str` are modelled as functions `List Char → Option (Nat × α)`
  returning the number of consumed characters and the parsed value; `none`
  models a recoverable nom error.
* `u64` values are represented as `Nat`; the 64-bit bound is enforced where the
  source enforces it (`str::parse::<u64>` during `decimal_value`).  The claims
  proved below are structural equalities that do not depend on wrap-around.
* The `indextree` arena is modelled as a list of nodes carrying the payload,
  an optional parent index and the ordered list of child indices.
* Rust panics (`unwrap` on `None`, underflowing `u64` subtraction) are
  modelled by `Option`-valued functions returning `none`.
-/

namespace Day7

abbrev Input := List Char

def NP (α : Type) : Type :=
  Input → Option (Nat × α)

def bindP {α β : Type} (p : NP α) (f : α → NP β) : NP β := fun inp =>
  match p inp with
  | some (n, a) =>
    match f a (inp.drop n) with
    | some (m, b) => some (n + m, b)
    | none => none
  | none => none

def pmap {α β : Type} (p : NP α) (f : α → β) : NP β := fun inp =>
  match p inp with
  | some (n, a) => some (n, f a)
  | none => none

/-- nom `tag`. -/
def tagP (t : List Char) : NP (List Char) := fun inp =>
  if t.isPrefixOf inp then some (t.length, t) else none

def satisfyP (f : Char → Bool) : NP Char := fun inp =>
  match inp with
  | [] => none
  | c :: _ => if f c then some (1, c) else none

/-- nom `one_of`. -/
def one_of (s : List Char) : NP Char :=
  satisfyP (fun c => s.contains c)

/-- nom `char`. -/
def charP (c : Char) : NP Char :=
  satisfyP (fun d => d == c)

/-- nom `alt` for two alternatives; chains model longer tuples. -/
def altP {α : Type} (p q : NP α) : NP α := fun inp =>
  match p inp with
  | some r => some r
  | none => q inp

/-- nom `pair`. -/
def seqP {α β : Type} (p : NP α) (q : NP β) : NP (α × β) :=
  bindP p fun a => pmap q fun b => (a, b)

/-- nom `terminated`. -/
def terminatedP {α β : Type} (p : NP α) (q : NP β) : NP α :=
  pmap (seqP p q) Prod.fst

/-- nom `recognize`: return the consumed slice of the input. -/
def recognizeP {α : Type} (p : NP α) : NP (List Char) := fun inp =>
  match p inp with
  | some (n, _) => some (n, inp.take n)
  | none => none

/-- nom `map_res`. -/
def map_res {α β : Type} (p : NP α) (f : α → Option β) : NP β := fun inp =>
  match p inp with
  | some (n, a) =>
    match f a with
    | some b => some (n, b)
    | none => none
  | none => none

/-- Maximal nonempty run of characters satisfying `f` (nom `take_while1`,
the behaviour of `alpha1`, `alphanumeric1`, `space1`). -/
def takeWhile1P (f : Char → Bool) : NP (List Char) := fun inp =>
  let pre := inp.takeWhile f
  if pre.isEmpty then none else some (pre.length, pre)

/-- nom `many0` loop.  The fuel is bounded by the input length; every
iteration consumes at least one character (a successful zero-length inner
parse is a nom `Many0` error, modelled by `none`). -/
def many0Aux {α : Type} (p : NP α) : Nat → Input → Option (Nat × List α)
  | 0, _ => some (0, [])
  | fuel + 1, inp =>
    match p inp with
    | none => some (0, [])
    | some (0, _) => none
    | some (n + 1, a) =>
      match many0Aux p fuel (inp.drop (n + 1)) with
      | some (m, xs) => some (n + 1 + m, a :: xs)
      | none => none

def many0P {α : Type} (p : NP α) : NP (List α) := fun inp =>
  many0Aux p (inp.length + 1) inp

/-- nom `many1`. -/
def many1P {α : Type} (p : NP α) : NP (List α) := fun inp =>
  match p inp with
  | none => none
  | some (0, _) => none
  | some (n + 1, a) =>
    match many0P p (inp.drop (n + 1)) with
    | some (m, xs) => some (n + 1 + m, a :: xs)
    | none => none

/-- nom `many0_count`. -/
def many0_count {α : Type} (p : NP α) : NP Nat :=
  pmap (many0P p) List.length

/-- nom `separated_list1` trailing loop: further `sep`-then-element groups,
stopping (and giving back the separator) at the first failure.  A
zero-length separator match is an error, as in nom. -/
def sepBy1Aux {α β : Type} (sep : NP α) (p : NP β) : Nat → Input → Option (Nat × List β)
  | 0, _ => some (0, [])
  | fuel + 1, inp =>
    match sep inp with
    | none => some (0, [])
    | some (0, _) => none
    | some (ns + 1, _) =>
      match p (inp.drop (ns + 1)) with
      | none => some (0, [])
      | some (np, b) =>
        match sepBy1Aux sep p fuel (inp.drop (ns + 1 + np)) with
        | some (m, bs) => some (ns + 1 + np + m, b :: bs)
        | none => none

/-- nom `separated_list1`: at least one element. -/
def separated_list1 {α β : Type} (sep : NP α) (p : NP β) : NP (List β) :=
  bindP p fun b => fun inp =>
    match sepBy1Aux sep p (inp.length + 1) inp with
    | some (m, bs) => some (m, b :: bs)
    | none => none

/-- nom `alpha1` (ASCII letters). -/
def alpha1 : NP (List Char) := takeWhile1P Char.isAlpha

/-- nom `alphanumeric1` (ASCII letters and digits). -/
def alphanumeric1 : NP (List Char) := takeWhile1P Char.isAlphanum

/-- nom `space1` (spaces and tabs). -/
def space1 : NP (List Char) := takeWhile1P (fun c => c == ' ' || c == '\t')

/-- nom `line_ending`: a line feed, or a carriage return plus line feed. -/
def line_ending : NP (List Char) := fun inp =>
  match inp with
  | '\n' :: _ => some (1, ['\n'])
  | '\r' :: '\n' :: _ => some (2, ['\r', '\n'])
  | _ => none

def digitsVal (cs : List Char) : Nat :=
  cs.foldl (fun acc c => 10 * acc + (c.toNat - 48)) 0

def u64Max : Nat := 2 ^ 64 - 1

/-- Model of Rust `str::parse::<u64>` (`u64::from_str`): an optional leading
`+`, then one or more ASCII digits and nothing else; the value must fit in
64 bits.  In particular a `_` anywhere makes the parse fail. -/
def rustParseU64 (cs : List Char) : Option Nat :=
  let ds := match cs with
    | '+' :: rest => rest
    | _ => cs
  if ds.isEmpty then none
  else if ds.all Char.isDigit then
    if digitsVal ds ≤ u64Max then some (digitsVal ds) else none
  else none

/-- `decimal_value` from the source: recognize digits optionally followed by
`_` separators, then convert the recognized slice with `str::parse::<u64>`. -/
def decimal_value : NP Nat :=
  map_res
    (recognizeP (many1P (terminatedP (one_of ("0123456789".toList)) (many0P (charP '_')))))
    rustParseU64

/-- `separator` from the source. -/
def separator : NP (List Char) :=
  altP (tagP ['_']) (altP (tagP ['-']) (tagP ['.']))

/-- `file_name` from the source. -/
def file_name : NP (List Char) :=
  recognizeP (seqP (altP alpha1 separator) (many0_count (altP alphanumeric1 separator)))

inductive Directory where
  | Root : Directory
  | Parent : Directory
  | Child (name : String) : Directory
deriving DecidableEq

namespace Directory

def parse_root : NP Directory := pmap (tagP ['/']) fun _ => Root

def parse_parent : NP Directory := pmap (tagP ['.', '.']) fun _ => Parent

def parse_child : NP Directory := pmap file_name fun nm => Child (String.mk nm)

def parse : NP Directory := altP parse_root (altP parse_parent parse_child)

end Directory

inductive DirectoryEntry where
  | File (name : String) (size : Nat) : DirectoryEntry
  | Directory (name : String) : DirectoryEntry
deriving DecidableEq

namespace DirectoryEntry

def parse_file : NP DirectoryEntry :=
  bindP decimal_value fun size =>
  bindP space1 fun _ =>
  pmap file_name fun nm => File (String.mk nm) size

def parse_directory : NP DirectoryEntry :=
  bindP (tagP ("dir".toList)) fun _ =>
  bindP space1 fun _ =>
  pmap file_name fun nm => Directory (String.mk nm)

def parse : NP DirectoryEntry := altP parse_file parse_directory

def name : DirectoryEntry → String
  | Directory nm => nm
  | File nm _ => nm

end DirectoryEntry

inductive Command where
  | Cd (dir : Directory) : Command
  | Ls (entries : List DirectoryEntry) : Command
deriving DecidableEq

namespace Command

def parse_cd : NP Command :=
  bindP (tagP ("cd".toList)) fun _ =>
  bindP space1 fun _ =>
  bindP Directory.parse fun d =>
  pmap (many1P line_ending) fun _ => Cd d

def parse_ls : NP Command :=
  bindP (tagP ("ls".toList)) fun _ =>
  bindP line_ending fun _ =>
  bindP (separated_list1 line_ending DirectoryEntry.parse) fun es =>
  pmap (many1P line_ending) fun _ => Ls es

def parse : NP Command :=
  bindP (tagP ("$".toList)) fun _ =>
  bindP space1 fun _ =>
  altP parse_cd parse_ls

end Command

/-- One step of `CommandIterator::next`: `none` on empty input, `none` on a
parse error (silent end of stream), otherwise the command and the rest. -/
def commandIterNext (inp : Input) : Option (Input × Command) :=
  if inp.isEmpty then none
  else
    match Command.parse inp with
    | some (n, c) => some (inp.drop n, c)
    | none => none

def parseCommandsAux : Nat → Input → List Command
  | 0, _ => []
  | fuel + 1, inp =>
    match commandIterNext inp with
    | some (rest, c) => c :: parseCommandsAux fuel rest
    | none => []

/-- The full command sequence produced by `Command::parse_multiple` /
`CommandIterator` (each successful parse consumes at least the `$` tag, so
`inp.length + 1` steps of fuel are enough to reach the stream's end). -/
def parseCommands (inp : Input) : List Command :=
  parseCommandsAux (inp.length + 1) inp

/-! ## The indextree arena and the tree builder (`Filesystem::parse`) -/

structure NodeData where
  entry : DirectoryEntry
  parent : Option Nat
  children : List Nat
deriving DecidableEq

structure Arena where
  nodes : List NodeData
deriving DecidableEq

/-- `arena.get(i)`; out-of-range indices yield a dummy node and are never
reached from the states the program builds. -/
def Arena.getNode (a : Arena) (i : Nat) : NodeData :=
  a.nodes.getD i ⟨DirectoryEntry.Directory "", none, []⟩

def Arena.len (a : Arena) : Nat := a.nodes.length

/-- `Arena::new_node`: push a fresh parentless, childless node, returning the
new arena and the node's id. -/
def Arena.newNode (a : Arena) (e : DirectoryEntry) : Arena × Nat :=
  (⟨a.nodes ++ [⟨e, none, []⟩]⟩, a.nodes.length)

/-- `NodeId::append(p, c)`: record `c` as the last child of `p` and set `c`'s
parent to `p`. -/
def Arena.appendChild (a : Arena) (p c : Nat) : Arena :=
  let pn := a.getNode p
  let cn := a.getNode c
  ⟨(a.nodes.set p { pn with children := pn.children ++ [c] }).set c { cn with parent := some p }⟩

/-- `new_node` followed by `append` under parent `p`, as performed for each
`ls` entry. -/
def Arena.appendNew (a : Arena) (p : Nat) (e : DirectoryEntry) : Arena :=
  ((a.newNode e).1).appendChild p (a.newNode e).2

/-- The arena at the start of `Filesystem::parse`: one root directory. -/
def initArena : Arena :=
  ⟨[⟨DirectoryEntry.Directory "/", none, []⟩]⟩

/-- One `ls` entry: `current_dir.append(arena.new_node(entry), &mut arena)`. -/
def lsEntry (st : Arena × Nat) (e : DirectoryEntry) : Arena × Nat :=
  let an := st.1.newNode e
  (an.1.appendChild st.2 an.2, st.2)

/-- One command of the builder loop in `Filesystem::parse`.  The state is the
arena together with `current_dir`; `none` models the `unwrap` panic on
`cd ..` at a parentless node. -/
def buildStep (st : Arena × Nat) : Command → Option (Arena × Nat)
  | Command.Cd Directory.Root => some st
  | Command.Cd Directory.Parent =>
    match (st.1.getNode st.2).parent with
    | some p => some (st.1, p)
    | none => none
  | Command.Cd (Directory.Child nm) =>
    match (st.1.getNode st.2).children.find?
        (fun c => decide ((st.1.getNode c).entry = DirectoryEntry.Directory nm)) with
    | some c => some (st.1, c)
    | none => some st
  | Command.Ls entries => some (entries.foldl lsEntry st)

def replay : (Arena × Nat) → List Command → Option (Arena × Nat)
  | st, [] => some st
  | st, c :: cs =>
    match buildStep st c with
    | some st2 => replay st2 cs
    | none => none

structure Filesystem where
  root : Nat
  arena : Arena
deriving DecidableEq

/-- `Filesystem::parse`: run the command stream from the root state. -/
def Filesystem.parse (input : String) : Option Filesystem :=
  (replay (initArena, 0) (parseCommands input.toList)).map fun st => ⟨0, st.1⟩

/-! ## The size aggregator (`Filesystem::filter_subdirs_by_size`) -/

/-- `Filesystem::filter_subdirs_by_size`, with the `&mut Vec` accumulator made
explicit and a fuel argument for the recursion depth (the source recursion
terminates because indextree arenas are acyclic; in every built arena a child
id is strictly greater than its parent id, so `a.len` levels suffice). -/
def filterSubdirsAux (a : Arena) (filter : Nat → Bool) :
    Nat → Nat → List (String × Nat) → Nat × List (String × Nat)
  | 0, _, dirs => (0, dirs)
  | fuel + 1, dir, dirs =>
    let acc := (a.getNode dir).children.foldl
      (fun (acc : Nat × List (String × Nat)) c =>
        match (a.getNode c).entry with
        | DirectoryEntry.File _ fileSize => (acc.1 + fileSize, acc.2)
        | DirectoryEntry.Directory _ =>
          let r := filterSubdirsAux a filter fuel c acc.2
          (acc.1 + r.1, r.2))
      (0, dirs)
    if filter acc.1 then (acc.1, acc.2 ++ [((a.getNode dir).entry.name, acc.1)])
    else (acc.1, acc.2)

/-- `Filesystem::filter_dirs_by_size`. -/
def Filesystem.filter_dirs_by_size (fs : Filesystem) (filter : Nat → Bool) :
    List (String × Nat) :=
  (filterSubdirsAux fs.arena filter (fs.arena.len + 1) fs.root []).2

/-- `Filesystem::total_size`: the returned running total of a query whose
filter never records anything. -/
def Filesystem.total_size (fs : Filesystem) : Nat :=
  (filterSubdirsAux fs.arena (fun _ => false) (fs.arena.len + 1) fs.root []).1

/-! ## The two solutions -/

def solution_part1 (fs : Filesystem) : Nat :=
  ((fs.filter_dirs_by_size (fun size => decide (size ≤ 100000))).map
    (fun p => p.2)).sum

/-- Checked `u64` subtraction: Rust `x - y` panics when `y > x`. -/
def u64Sub (x y : Nat) : Option Nat :=
  if y ≤ x then some (x - y) else none

/-- `solution_part2`; `none` models the two possible panics (underflowing
subtraction, `min().unwrap()` on an empty collection). -/
def solution_part2 (fs : Filesystem) : Option Nat :=
  match u64Sub 70000000 fs.total_size with
  | none => none
  | some free =>
    match u64Sub 30000000 free with
    | none => none
    | some size_to_free =>
      ((fs.filter_dirs_by_size (fun size => decide (size_to_free ≤ size))).map
        (fun p => p.2)).min?

/-! ## The canonical fixture of spec section 8 -/

def exampleInput : String :=
  "$ cd /\n$ ls\ndir a\n14848514 b.txt\n8504156 c.dat\ndir d\n" ++
  "$ cd a\n$ ls\ndir e\n29116 f\n2557 g\n62596 h.lst\n" ++
  "$ cd e\n$ ls\n584 i\n$ cd ..\n$ cd ..\n$ cd d\n" ++
  "$ ls\n4060174 j\n8033020 d.log\n5626152 d.ext\n7214296 k\n"

/-! ## Specification-side descriptions of the tree and the aggregation query

These definitions follow the words of the specification (post-order
traversal, aggregate size as the sum of the sizes of all files transitively
contained in a directory); the refinement theorems below compare them with
the embedded source functions. -/

def entryFileSize : DirectoryEntry → Nat
  | DirectoryEntry.File _ s => s
  | DirectoryEntry.Directory _ => 0

def fileSizeAt (a : Arena) (i : Nat) : Nat :=
  entryFileSize (a.getNode i).entry

def isDirAt (a : Arena) (i : Nat) : Bool :=
  match (a.getNode i).entry with
  | DirectoryEntry.Directory _ => true
  | DirectoryEntry.File _ _ => false

def nodeName (a : Arena) (i : Nat) : String :=
  (a.getNode i).entry.name

/-- Post-order traversal of the subtree rooted at `d`: all descendants of a
node before the node itself, children in stored order. -/
def specPostOrder (a : Arena) : Nat → Nat → List Nat
  | 0, _ => []
  | fuel + 1, d => ((a.getNode d).children.flatMap (specPostOrder a fuel)) ++ [d]

/-- Aggregate size of the subtree rooted at `d`: the sum of the sizes of all
files transitively contained in it. -/
def specAggSize (a : Arena) (d : Nat) : Nat :=
  ((specPostOrder a a.len d).map (fileSizeAt a)).sum

/-- The `(directoryName, aggregateSize)` pairs of the directory nodes of the
subtree rooted at `d` whose aggregate size satisfies `p`, in post-order. -/
def specDirsBySize (a : Arena) (p : Nat → Bool) (d : Nat) : List (String × Nat) :=
  (specPostOrder a a.len d).filterMap fun i =>
    if isDirAt a i && p (specAggSize a i) then some (nodeName a i, specAggSize a i)
    else none

/-! ## Shape predicates for frozen trees -/

/-- Every stored child id is strictly greater than its parent id and in
range (node ids are allocated in creation order and a node is appended to an
already existing parent, so this holds for every arena the builder makes). -/
def Arena.ChildGt (a : Arena) : Prop :=
  ∀ d, d < a.len → ∀ c ∈ (a.getNode d).children, d < c ∧ c < a.len

/-- File nodes have no children. -/
def Arena.FileLeaf (a : Arena) : Prop :=
  ∀ i, i < a.len → isDirAt a i = false → (a.getNode i).children = []

instance (a : Arena) : Decidable a.ChildGt := by
  unfold Arena.ChildGt; infer_instance

instance (a : Arena) : Decidable a.FileLeaf := by
  unfold Arena.FileLeaf; infer_instance

/-- Invariant of the builder state `(arena, current_dir)`, established at the
initial state and preserved by every successful `buildStep`. -/
structure BInv (a : Arena) (cur : Nat) : Prop where
  len_pos : 0 < a.len
  root_par : (a.getNode 0).parent = none
  root_dir : isDirAt a 0 = true
  cg : a.ChildGt
  par_dir : ∀ i p, i < a.len → (a.getNode i).parent = some p → p < a.len ∧ isDirAt a p = true
  par_some : ∀ i, 0 < i → i < a.len → (a.getNode i).parent ≠ none
  cur_lt : cur < a.len
  cur_dir : isDirAt a cur = true
  file_leaf : a.FileLeaf

/-- Every node of the arena occurs exactly once in the post-order traversal
from the root (the tree reaches every allocated node, with no sharing). -/
def CntInv (a : Arena) : Prop :=
  ∀ q, q < a.len → (specPostOrder a a.len 0).count q = 1

/-- A run of `CommandIterator`: starting from input `s`, the commands `cs`
are yielded one after the other, in input order, leaving `stop`. -/
inductive IterRun : Input → List Command → Input → Prop where
  | done (s : Input) : IterRun s [] s
  | step {s rest stop : Input} {c : Command} {cs : List Command} :
      commandIterNext s = some (rest, c) → IterRun rest cs stop →
      IterRun s (c :: cs) stop

/-- `cd ..` is only ever issued while the cursor is a non-root node, along
the replay of the command list from the given state. -/
def safeSeq : (Arena × Nat) → List Command → Bool
  | _, [] => true
  | st, c :: cs =>
    (if c = Command.Cd Directory.Parent then decide (st.2 ≠ 0) else true) &&
    (match buildStep st c with
     | some st2 => safeSeq st2 cs
     | none => true)

/-- Sum of the sizes of the `File` entries appended while replaying the
given commands (each `ls` appends exactly its entries). -/
def lsFileSum (cmds : List Command) : Nat :=
  (cmds.map fun c =>
    match c with
    | Command.Ls es => (es.map entryFileSize).sum
    | Command.Cd _ => 0).sum

/-- Sum of the sizes of the `File` entries appended by one command. -/
def lsCmdFileSum : Command → Nat
  | Command.Ls es => (es.map entryFileSize).sum
  | Command.Cd _ => 0

/-- Sum of the file sizes of all nodes stored in the arena. -/
def arenaFileSum (a : Arena) : Nat :=
  ((List.range a.len).map (fileSizeAt a)).sum

/-! ## Inversion lemmas for the parser combinators -/

theorem bindP_inv {α β : Type} {p : NP α} {f : α → NP β} {inp : Input} {r : Nat × β}
    (h : bindP p f inp = some r) :
    ∃ n a m b, p inp = some (n, a) ∧ f a (inp.drop n) = some (m, b) ∧ r = (n + m, b) := by
  unfold bindP at h
  split at h
  next n a hp =>
    split at h
    next m b hf =>
      injection h with h1
      exact ⟨n, a, m, b, hp, hf, h1.symm⟩
    next => cases h
  next => cases h

theorem pmap_inv {α β : Type} {p : NP α} {f : α → β} {inp : Input} {r : Nat × β}
    (h : pmap p f inp = some r) :
    ∃ n a, p inp = some (n, a) ∧ r = (n, f a) := by
  unfold pmap at h
  split at h
  next n a hp =>
    injection h with h1
    exact ⟨n, a, hp, h1.symm⟩
  next => cases h

theorem separated_list1_shape {α β : Type} {sep : NP α} {p : NP β} {inp : Input}
    {r : Nat × List β} (h : separated_list1 sep p inp = some r) :
    ∃ b bs, r.2 = b :: bs := by
  obtain ⟨n, a, m, b, hp, hf, hr⟩ := bindP_inv h
  split at hf
  next m2 bs hx =>
    injection hf with h1
    exact ⟨a, bs, by rw [hr]; exact (congrArg Prod.snd h1).symm⟩
  next => cases hf

theorem parse_ls_shape (inp : Input) (r : Nat × Command)
    (h : Command.parse_ls inp = some r) :
    ∃ e es, r.2 = Command.Ls (e :: es) := by
  unfold Command.parse_ls at h
  obtain ⟨n1, a1, m1, b1, h1, h2, hr1⟩ := bindP_inv h
  obtain ⟨n2, a2, m2, b2, h3, h4, hr2⟩ := bindP_inv h2
  obtain ⟨n3, es, m3, b3, h5, h6, hr3⟩ := bindP_inv h4
  obtain ⟨n4, a4, h7, hr4⟩ := pmap_inv h6
  obtain ⟨e, es2, hshape⟩ := separated_list1_shape h5
  have e1 : r.2 = b1 := congrArg Prod.snd hr1
  have e2 : b1 = b2 := congrArg Prod.snd hr2
  have e3 : b2 = b3 := congrArg Prod.snd hr3
  have e4 : b3 = Command.Ls es := congrArg Prod.snd hr4
  have e5 : es = e :: es2 := hshape
  exact ⟨e, es2, by rw [e1, e2, e3, e4, e5]⟩

/-! ## Claim theorems: concrete end-to-end behaviour -/

set_option maxRecDepth 40000 in
/-- C1: on the canonical fixture command log of spec section 8, building the
tree and querying it yields total tree size 48381165, the directories of
aggregate size at most 100000 are exactly `("e", 584)` and `("a", 94853)`,
`solution_part1` is 95437 and `solution_part2` is 24933642. -/
theorem claim1_canonical_fixture :
    (Filesystem.parse exampleInput).map Filesystem.total_size = some 48381165 ∧
    (Filesystem.parse exampleInput).map
        (fun fs => fs.filter_dirs_by_size (fun size => decide (size ≤ 100000)))
      = some [("e", 584), ("a", 94853)] ∧
    (Filesystem.parse exampleInput).map solution_part1 = some 95437 ∧
    (Filesystem.parse exampleInput).bind solution_part2 = some 24933642 :=
  ⟨by rfl, by rfl, by rfl, by rfl⟩

set_option maxRecDepth 2000 in
/-- C4: the grammar of `decimal_value` recognizes the token `1_2` (three
characters), but the subsequent `str::parse::<u64>` conversion rejects the
underscore, so `decimal_value` fails on it and a `File` entry line starting
with `1_2` is unparseable, contradicting the specified acceptance of `_`
separators. -/
theorem claim4_underscore_rejected :
    recognizeP (many1P (terminatedP (one_of ("0123456789".toList)) (many0P (charP '_'))))
        ("1_2".toList) = some (3, "1_2".toList) ∧
    decimal_value ("1_2".toList) = none ∧
    DirectoryEntry.parse_file ("1_2 a".toList) = none ∧
    DirectoryEntry.parse ("1_2 a".toList) = none :=
  ⟨by rfl, by rfl, by rfl, by rfl⟩

/-- C5 counterexample: an `ls` command line immediately followed by another
command line (zero entries) does not parse into a `List` command with an
empty entry sequence — `Command::parse` fails on it, because
`separated_list1` demands at least one entry line. -/
theorem claim5_zero_entries_fails :
    Command.parse ("$ ls\n$ cd a\n".toList) = none ∧
    Command.parse_ls ("ls\n$ cd a\n".toList) = none :=
  ⟨by rfl, by rfl⟩

/-- C5 (amended): an `ls` command is parsed as the tag `ls`, a line break,
then ONE or more entry lines — every successful `parse_ls` yields a
non-empty entry sequence, and an `ls` with at least one entry line parses. -/
theorem claim5_ls_one_or_more :
    (∀ inp r, Command.parse_ls inp = some r → ∃ e es, r.2 = Command.Ls (e :: es)) ∧
    Command.parse ("$ ls\ndir a\n14848514 b.txt\n".toList)
      = some (26, Command.Ls
          [DirectoryEntry.Directory "a", DirectoryEntry.File "b.txt" 14848514]) :=
  ⟨parse_ls_shape, by rfl⟩

/-- C5 witness: the amended theorem applied to the concrete `ls` block with
one `dir` entry. -/
theorem claim5_witness :
    ∃ e es, ((9, Command.Ls [DirectoryEntry.Directory "a"]) : Nat × Command).2
      = Command.Ls (e :: es) :=
  claim5_ls_one_or_more.1 ("ls\ndir a\n".toList)
    (9, Command.Ls [DirectoryEntry.Directory "a"]) (by rfl)

/-! ## Claim C6: the command iterator -/

theorem tagP_len {t : List Char} {inp : Input} {r : Nat × List Char}
    (h : tagP t inp = some r) : r.1 = t.length := by
  unfold tagP at h
  split at h
  next => injection h with h1; rw [← h1]
  next => cases h

theorem Command.parse_consumes {inp : Input} {r : Nat × Command}
    (h : Command.parse inp = some r) : 1 ≤ r.1 := by
  unfold Command.parse at h
  obtain ⟨n1, a1, m1, b1, h1, h2, hr⟩ := bindP_inv h
  have hl : n1 = 1 := tagP_len h1
  have : r.1 = n1 + m1 := congrArg Prod.fst hr
  omega

theorem commandIterNext_some {inp rest : Input} {c : Command}
    (h : commandIterNext inp = some (rest, c)) :
    ∃ n, Command.parse inp = some (n, c) ∧ rest = inp.drop n ∧ inp ≠ [] := by
  unfold commandIterNext at h
  split at h
  next => cases h
  next hne =>
    split at h
    next n c2 hp =>
      injection h with h1
      injection h1 with hrest hc
      refine ⟨n, ?_, hrest.symm, ?_⟩
      · rw [hp, hc]
      · intro hnil
        rw [hnil] at hne
        simp at hne
    next => cases h

theorem parseCommandsAux_runs :
    ∀ fuel inp, inp.length < fuel →
      ∃ stop, IterRun inp (parseCommandsAux fuel inp) stop ∧
        (stop = [] ∨ Command.parse stop = none) := by
  intro fuel
  induction fuel with
  | zero => intro inp h; omega
  | succ fuel ih =>
    intro inp hlen
    cases hn : commandIterNext inp with
    | none =>
      refine ⟨inp, ?_, ?_⟩
      · simp only [parseCommandsAux, hn]
        exact IterRun.done inp
      · unfold commandIterNext at hn
        split at hn
        next he => exact Or.inl (by simpa using he)
        next =>
          split at hn
          next => cases hn
          next hp => exact Or.inr hp
    | some rc =>
      obtain ⟨rest, c⟩ := rc
      obtain ⟨n, hp, hrest, hne⟩ := commandIterNext_some hn
      have h1 : 1 ≤ n := Command.parse_consumes hp
      have h2 : 1 ≤ inp.length := by
        cases inp with
        | nil => exact absurd rfl hne
        | cons a l => simp
      have h3 : rest.length < fuel := by
        rw [hrest, List.length_drop]
        omega
      obtain ⟨stop, hrun, hterm⟩ := ih rest h3
      refine ⟨stop, ?_, hterm⟩
      simp only [parseCommandsAux, hn]
      exact IterRun.step hn hrun

/-- C6: for every input text, the command sequence produced by the parser is
exactly a run of `CommandIterator::next` steps, each command emitted in input
order from successive parses, and the run stops either at end of input or at
the first position whose line fails to parse (a malformed line is a silent
end of stream — the produced value is still a plain command list, not an
error). -/
theorem claim6_iterator_stops_at_end_or_first_failure :
    ∀ inp : Input, ∃ stop : Input,
      IterRun inp (parseCommands inp) stop ∧
        (stop = [] ∨ Command.parse stop = none) := by
  intro inp
  exact parseCommandsAux_runs (inp.length + 1) inp (by omega)

/-! ## The builder state invariant and claims C7, C8, C10 -/

theorem lsEntry_eq (a : Arena) (cur : Nat) (e : DirectoryEntry) :
    lsEntry (a, cur) e = (a.appendNew cur e, cur) := rfl

theorem Arena.appendNew_len (a : Arena) (p : Nat) (e : DirectoryEntry) :
    (a.appendNew p e).len = a.len + 1 := by
  unfold Arena.appendNew Arena.appendChild Arena.newNode Arena.len
  simp

theorem Arena.getNode_ge (a : Arena) {i : Nat} (h : a.len ≤ i) :
    a.getNode i = ⟨DirectoryEntry.Directory "", none, []⟩ := by
  unfold Arena.getNode
  exact List.getD_eq_default _ _ h

theorem Arena.getNode_appendNew_of_ne {a : Arena} {i p : Nat} (e : DirectoryEntry)
    (hi : i < a.len) (hne : i ≠ p) :
    (a.appendNew p e).getNode i = a.getNode i := by
  unfold Arena.appendNew Arena.appendChild Arena.newNode Arena.getNode Arena.len at *
  simp only [List.getD_eq_getElem?_getD]
  rw [List.getElem?_set_ne (by simp; omega : a.nodes.length ≠ i)]
  rw [List.getElem?_set_ne (Ne.symm hne)]
  rw [List.getElem?_append_left hi]

theorem Arena.getNode_appendNew_self {a : Arena} {p : Nat} (e : DirectoryEntry)
    (hp : p < a.len) :
    (a.appendNew p e).getNode p =
      { a.getNode p with children := (a.getNode p).children ++ [a.len] } := by
  unfold Arena.appendNew Arena.appendChild Arena.newNode Arena.getNode Arena.len at *
  simp only [List.getD_eq_getElem?_getD]
  rw [List.getElem?_set_ne (by simp; omega : a.nodes.length ≠ p)]
  rw [List.getElem?_set_self (by simp; omega)]
  simp only [List.getElem?_append_left hp]
  cases hx : a.nodes[p]? with
  | none => exact absurd hx (by simp; omega)
  | some nd => simp [List.getD_eq_getElem?_getD, List.getElem?_append_left hp, hx]

theorem Arena.getNode_appendNew_new {a : Arena} {p : Nat} (e : DirectoryEntry)
    (hp : p < a.len) :
    (a.appendNew p e).getNode a.len = ⟨e, some p, []⟩ := by
  unfold Arena.appendNew Arena.appendChild Arena.newNode Arena.getNode Arena.len at *
  simp only [List.getD_eq_getElem?_getD]
  rw [List.getElem?_set_self (by simp)]
  simp [List.getD_eq_getElem?_getD, List.getElem?_set_ne (by omega : p ≠ a.nodes.length),
    List.getElem?_append_right (le_refl a.nodes.length)]

theorem Arena.getNode_appendNew_entry {a : Arena} {p i : Nat} (e : DirectoryEntry)
    (hp : p < a.len) (hi : i < a.len) :
    ((a.appendNew p e).getNode i).entry = (a.getNode i).entry ∧
      ((a.appendNew p e).getNode i).parent = (a.getNode i).parent ∧
      ((a.appendNew p e).getNode i).children
        = (a.getNode i).children ++ (if i = p then [a.len] else []) := by
  by_cases hip : i = p
  · subst hip
    rw [Arena.getNode_appendNew_self e hp]
    simp
  · rw [Arena.getNode_appendNew_of_ne e hi hip]
    simp [hip]

theorem isDirAt_appendNew {a : Arena} {p i : Nat} (e : DirectoryEntry)
    (hp : p < a.len) (hi : i < a.len) :
    isDirAt (a.appendNew p e) i = isDirAt a i := by
  unfold isDirAt
  rw [(Arena.getNode_appendNew_entry e hp hi).1]

theorem binv_lsEntry {a : Arena} {cur : Nat} (e : DirectoryEntry) (h : BInv a cur) :
    BInv (a.appendNew cur e) cur := by
  have hcur := h.cur_lt
  have hlen := Arena.appendNew_len a cur e
  constructor
  case len_pos => rw [hlen]; omega
  case root_par =>
    rcases Arena.getNode_appendNew_entry e hcur h.len_pos with ⟨-, hpar, -⟩
    rw [hpar]; exact h.root_par
  case root_dir =>
    rw [isDirAt_appendNew e hcur h.len_pos]; exact h.root_dir
  case cg =>
    intro d hd c hc
    rcases Nat.lt_or_ge d a.len with hdl | hdl
    · rcases Arena.getNode_appendNew_entry e hcur hdl with ⟨-, -, hch⟩
      rw [hch] at hc
      rcases List.mem_append.mp hc with hc | hc
      · have := h.cg d hdl c hc; omega
      · by_cases hdp : d = cur
        · simp [hdp] at hc; omega
        · simp [hdp] at hc
    · have hd2 : d = a.len := by omega
      subst hd2
      rw [Arena.getNode_appendNew_new e hcur] at hc
      simp at hc
  case par_dir =>
    intro i p hi hp
    rcases Nat.lt_or_ge i a.len with hil | hil
    · rcases Arena.getNode_appendNew_entry e hcur hil with ⟨-, hpar, -⟩
      rw [hpar] at hp
      obtain ⟨h1, h2⟩ := h.par_dir i p hil hp
      exact ⟨by omega, by rw [isDirAt_appendNew e hcur h1]; exact h2⟩
    · have hi2 : i = a.len := by omega
      subst hi2
      rw [Arena.getNode_appendNew_new e hcur] at hp
      injection hp with hp
      subst hp
      exact ⟨by omega, by rw [isDirAt_appendNew e hcur hcur]; exact h.cur_dir⟩
  case par_some =>
    intro i hi0 hi
    rcases Nat.lt_or_ge i a.len with hil | hil
    · rcases Arena.getNode_appendNew_entry e hcur hil with ⟨-, hpar, -⟩
      rw [hpar]
      exact h.par_some i hi0 hil
    · have hi2 : i = a.len := by omega
      subst hi2
      rw [Arena.getNode_appendNew_new e hcur]
      simp
  case cur_lt => rw [hlen]; omega
  case cur_dir =>
    rw [isDirAt_appendNew e hcur hcur]; exact h.cur_dir
  case file_leaf =>
    intro i hi hdir
    rcases Nat.lt_or_ge i a.len with hil | hil
    · rw [isDirAt_appendNew e hcur hil] at hdir
      rcases Arena.getNode_appendNew_entry e hcur hil with ⟨-, -, hch⟩
      rw [hch]
      have hif : i ≠ cur := by
        intro hic; rw [hic] at hdir; rw [h.cur_dir] at hdir; cases hdir
      simp [hif, h.file_leaf i hil hdir]
    · have hi2 : i = a.len := by omega
      subst hi2
      rw [Arena.getNode_appendNew_new e hcur]

theorem foldl_lsEntry_snd (es : List DirectoryEntry) :
    ∀ a cur, (es.foldl lsEntry (a, cur)).2 = cur := by
  induction es with
  | nil => intro a cur; rfl
  | cons e es ih =>
    intro a cur
    rw [List.foldl_cons, lsEntry_eq]
    exact ih _ _

theorem binv_foldl_lsEntry (es : List DirectoryEntry) :
    ∀ a cur, BInv a cur →
      BInv (es.foldl lsEntry (a, cur)).1 (es.foldl lsEntry (a, cur)).2 := by
  induction es with
  | nil => intro a cur h; exact h
  | cons e es ih =>
    intro a cur h
    rw [List.foldl_cons, lsEntry_eq]
    exact ih _ _ (binv_lsEntry e h)

theorem binv_buildStep {st st2 : Arena × Nat} {c : Command}
    (h : BInv st.1 st.2) (hs : buildStep st c = some st2) : BInv st2.1 st2.2 := by
  cases c with
  | Cd dir => ?_
  | Ls es => ?_
  case Ls =>
    injection hs with hs
    rw [← hs]
    exact binv_foldl_lsEntry es st.1 st.2 h
  cases dir with
  | Root =>
    injection hs with hs
    rw [← hs]; exact h
  | Parent =>
    simp only [buildStep] at hs
    split at hs
    next p hp =>
      injection hs with hs
      rw [← hs]
      obtain ⟨h1, h2⟩ := h.par_dir st.2 p h.cur_lt hp
      exact { h with cur_lt := h1, cur_dir := h2 }
    next => cases hs
  | Child nm =>
    simp only [buildStep] at hs
    split at hs
    next c2 hfind =>
      injection hs with hs
      rw [← hs]
      have hmem := List.mem_of_find?_eq_some hfind
      have hpred := List.find?_some hfind
      have hlt := (h.cg st.2 h.cur_lt c2 hmem).2
      have hdir : isDirAt st.1 c2 = true := by
        unfold isDirAt
        rw [of_decide_eq_true hpred]
      exact { h with cur_lt := hlt, cur_dir := hdir }
    next =>
      injection hs with hs
      rw [← hs]; exact h

theorem binv_init : BInv initArena 0 := by
  have h1 : initArena.len = 1 := rfl
  constructor
  case len_pos => decide
  case root_par => rfl
  case root_dir => rfl
  case cg =>
    intro d hd c hc
    have hd0 : d = 0 := by omega
    subst hd0
    simp [initArena, Arena.getNode] at hc
  case par_dir =>
    intro i p hi hp
    have hi0 : i = 0 := by omega
    subst hi0
    rw [show (initArena.getNode 0).parent = none from rfl] at hp
    cases hp
  case par_some => intro i hi0 hi; omega
  case cur_lt => decide
  case cur_dir => rfl
  case file_leaf =>
    intro i hi hdir
    have hi0 : i = 0 := by omega
    subst hi0
    exact absurd hdir (by decide)

theorem binv_replay {cmds : List Command} :
    ∀ st st2, BInv st.1 st.2 → replay st cmds = some st2 → BInv st2.1 st2.2 := by
  induction cmds with
  | nil =>
    intro st st2 h hr
    injection hr with hr
    rw [← hr]; exact h
  | cons c cs ih =>
    intro st st2 h hr
    unfold replay at hr
    split at hr
    next st3 hstep => exact ih st3 st2 (binv_buildStep h hstep) hr
    next => cases hr


theorem buildStep_some_of_safe {st : Arena × Nat} {c : Command}
    (hinv : BInv st.1 st.2) (hc : c = Command.Cd Directory.Parent → st.2 ≠ 0) :
    ∃ st2, buildStep st c = some st2 := by
  cases c with
  | Cd dir =>
    cases dir with
    | Root => exact ⟨st, rfl⟩
    | Parent =>
      have hne : st.2 ≠ 0 := hc rfl
      have hpar := hinv.par_some st.2 (Nat.pos_of_ne_zero hne) hinv.cur_lt
      cases hp : (st.1.getNode st.2).parent with
      | none => exact absurd hp hpar
      | some p => exact ⟨(st.1, p), by simp [buildStep, hp]⟩
    | Child nm =>
      cases hf : (st.1.getNode st.2).children.find?
          (fun c => decide ((st.1.getNode c).entry = DirectoryEntry.Directory nm)) with
      | none => exact ⟨st, by simp [buildStep, hf]⟩
      | some c2 => exact ⟨(st.1, c2), by simp [buildStep, hf]⟩
  | Ls es => exact ⟨(es.foldl lsEntry st), rfl⟩

theorem safe_replay :
    ∀ cmds (st : Arena × Nat), BInv st.1 st.2 → safeSeq st cmds = true →
      (replay st cmds).isSome = true := by
  intro cmds
  induction cmds with
  | nil => intro st hinv hsafe; rfl
  | cons c cs ih =>
    intro st hinv hsafe
    simp only [safeSeq, Bool.and_eq_true] at hsafe
    obtain ⟨h1, h2⟩ := hsafe
    have hcp : c = Command.Cd Directory.Parent → st.2 ≠ 0 := by
      intro hcc
      rw [if_pos hcc] at h1
      exact of_decide_eq_true h1
    obtain ⟨st2, hstep⟩ := buildStep_some_of_safe hinv hcp
    rw [hstep] at h2
    unfold replay
    rw [hstep]
    exact ih st2 (binv_buildStep hinv hstep) h2

/-- C7: a `ChangeDirectory(Parent)` command moves the cursor to its parent
under the precondition that the cursor is not the root; for every command
sequence in which `cd ..` is only issued while the cursor is a non-root node,
the builder never reaches the fatal branch (the replay returns `some`; the
fatal branch is the `none` of `buildStep`, modelling the `unwrap` abort, not
a handled error). -/
theorem claim7_safe_parent_never_panics :
    ∀ cmds, safeSeq (initArena, 0) cmds = true →
      (replay (initArena, 0) cmds).isSome = true :=
  fun cmds h => safe_replay cmds (initArena, 0) binv_init h

/-- C7 witness: a concrete safe command sequence containing `cd ..`. -/
theorem claim7_witness :
    (replay (initArena, 0)
      [Command.Ls [DirectoryEntry.Directory "d"],
       Command.Cd (Directory.Child "d"),
       Command.Cd Directory.Parent]).isSome = true :=
  claim7_safe_parent_never_panics _ (by rfl)

/-- C8: `ChangeDirectory(Child(name))` linearly searches the cursor's direct
children for a `Directory` entry equal to `Directory { name }` and moves the
cursor to the first match; when no child matches, the step succeeds with the
cursor unchanged and the arena unmodified (silent no-op, no error), and in
every case the arena is left untouched. -/
theorem claim8_missing_child_noop :
    ∀ (a : Arena) (cur : Nat) (nm : String),
      (∀ r, buildStep (a, cur) (Command.Cd (Directory.Child nm)) = some r → r.1 = a) ∧
      ((∀ c ∈ (a.getNode cur).children,
          (a.getNode c).entry ≠ DirectoryEntry.Directory nm) →
        buildStep (a, cur) (Command.Cd (Directory.Child nm)) = some (a, cur)) ∧
      (∀ l1 c l2, (a.getNode cur).children = l1 ++ c :: l2 →
        (a.getNode c).entry = DirectoryEntry.Directory nm →
        (∀ c2 ∈ l1, (a.getNode c2).entry ≠ DirectoryEntry.Directory nm) →
        buildStep (a, cur) (Command.Cd (Directory.Child nm)) = some (a, c)) := by
  intro a cur nm
  refine ⟨?_, ?_, ?_⟩
  · intro r hr
    simp only [buildStep] at hr
    split at hr
    · injection hr with hr; rw [← hr]
    · injection hr with hr; rw [← hr]
  · intro hno
    have hf : (a.getNode cur).children.find?
        (fun c => decide ((a.getNode c).entry = DirectoryEntry.Directory nm)) = none := by
      rw [List.find?_eq_none]
      intro x hx
      simpa using hno x hx
    simp [buildStep, hf]
  · intro l1 c l2 hch hc hl1
    have hf : (a.getNode cur).children.find?
        (fun c => decide ((a.getNode c).entry = DirectoryEntry.Directory nm)) = some c := by
      rw [hch, List.find?_append]
      have h1 : l1.find?
          (fun c => decide ((a.getNode c).entry = DirectoryEntry.Directory nm)) = none := by
        rw [List.find?_eq_none]
        intro x hx
        simpa using hl1 x hx
      rw [h1]
      simp [List.find?_cons_of_pos, hc]
    simp [buildStep, hf]

/-- C8 witness: `cd x` at the root of the initial arena (no children) is a
no-op. -/
theorem claim8_witness :
    buildStep (initArena, 0) (Command.Cd (Directory.Child "x")) = some (initArena, 0) :=
  (claim8_missing_child_noop initArena 0 "x").2.1 (by decide)

/-- C10: throughout `Filesystem::parse` the cursor always points at a node
whose payload is a `Directory` entry (stated for the state after replaying
any command prefix from the initial state), and a `File` entry never equals
the `Directory { name }` value compared against during the child search. -/
theorem claim10_cursor_is_directory :
    (∀ cmds a cur, replay (initArena, 0) cmds = some (a, cur) → isDirAt a cur = true) ∧
    (∀ nm nm2 sz, DirectoryEntry.File nm2 sz ≠ DirectoryEntry.Directory nm) := by
  refine ⟨?_, ?_⟩
  · intro cmds a cur hr
    exact (binv_replay (initArena, 0) (a, cur) binv_init hr).cur_dir
  · intro nm nm2 sz h
    cases h

/-- C10 witness: the empty replay leaves the cursor at the root directory. -/
theorem claim10_witness : isDirAt initArena 0 = true :=
  claim10_cursor_is_directory.1 [] initArena 0 rfl

/-! ## Claim C9: part 2 never panics for realistic totals -/

theorem filterSubdirsAux_fst_indep (a : Arena) :
    ∀ fuel d (p q : Nat → Bool) (ds es : List (String × Nat)),
      (filterSubdirsAux a p fuel d ds).1 = (filterSubdirsAux a q fuel d es).1 := by
  intro fuel
  induction fuel with
  | zero => intro d p q ds es; rfl
  | succ fuel ih =>
    intro d p q ds es
    have hfold : ∀ (cs : List Nat) (s : Nat) (ds2 es2 : List (String × Nat)),
        (cs.foldl (fun acc c => match (a.getNode c).entry with
          | DirectoryEntry.File _ fileSize => (acc.1 + fileSize, acc.2)
          | DirectoryEntry.Directory _ =>
            let r := filterSubdirsAux a p fuel c acc.2
            (acc.1 + r.1, r.2)) (s, ds2)).1 =
        (cs.foldl (fun acc c => match (a.getNode c).entry with
          | DirectoryEntry.File _ fileSize => (acc.1 + fileSize, acc.2)
          | DirectoryEntry.Directory _ =>
            let r := filterSubdirsAux a q fuel c acc.2
            (acc.1 + r.1, r.2)) (s, es2)).1 := by
      intro cs
      induction cs with
      | nil => intro s ds2 es2; rfl
      | cons c cs ihc =>
        intro s ds2 es2
        simp only [List.foldl_cons]
        cases he : (a.getNode c).entry with
        | File nm fileSize =>
          simp only [he]
          exact ihc (s + fileSize) ds2 es2
        | Directory nm =>
          simp only [he]
          rw [ih c p q ds2 es2]
          exact ihc _ _ _
    simp only [filterSubdirsAux]
    have hacc := hfold (a.getNode d).children 0 ds es
    split <;> split <;> simp only [] <;> exact hacc




theorem filterSubdirsAux_succ_fst (a : Arena) (p : Nat → Bool) (fuel d : Nat)
    (ds : List (String × Nat)) :
    (filterSubdirsAux a p (fuel + 1) d ds).1 =
      ((a.getNode d).children.foldl (fun acc c => match (a.getNode c).entry with
        | DirectoryEntry.File _ fileSize => (acc.1 + fileSize, acc.2)
        | DirectoryEntry.Directory _ =>
          let r := filterSubdirsAux a p fuel c acc.2
          (acc.1 + r.1, r.2)) (0, ds)).1 := by
  simp only [filterSubdirsAux]
  split <;> rfl

theorem filter_dirs_by_size_ne_nil (fs : Filesystem) (p : Nat → Bool)
    (hroot : p fs.total_size = true) :
    fs.filter_dirs_by_size p ≠ [] := by
  unfold Filesystem.filter_dirs_by_size
  have hsz : ((fs.arena.getNode fs.root).children.foldl
      (fun acc c => match (fs.arena.getNode c).entry with
        | DirectoryEntry.File _ fileSize => (acc.1 + fileSize, acc.2)
        | DirectoryEntry.Directory _ =>
          let r := filterSubdirsAux fs.arena p fs.arena.len c acc.2
          (acc.1 + r.1, r.2)) (0, ([] : List (String × Nat)))).1 = fs.total_size := by
    have h1 := filterSubdirsAux_succ_fst fs.arena p fs.arena.len fs.root []
    have h2 := filterSubdirsAux_fst_indep fs.arena (fs.arena.len + 1) fs.root p
      (fun _ => false) [] []
    unfold Filesystem.total_size
    rw [← h1, h2]
  simp only [filterSubdirsAux]
  split
  next h =>
    simp only []
    intro hcon
    exact (List.append_ne_nil_of_right_ne_nil _ (by simp)) hcon
  next h =>
    rw [hsz] at h
    rw [hroot] at h
    exact absurd rfl h

/-- C9: for every filesystem whose total size T satisfies
40000000 <= T <= 70000000, `solution_part2` never panics: both checked
subtractions succeed and the root directory's own aggregate (equal to T)
satisfies the derived predicate, so the filtered collection is non-empty and
taking its minimum succeeds. -/
theorem claim9_part2_no_panic :
    ∀ fs : Filesystem, 40000000 ≤ fs.total_size → fs.total_size ≤ 70000000 →
      (solution_part2 fs).isSome = true := by
  intro fs h1 h2
  unfold solution_part2
  have hs1 : u64Sub 70000000 fs.total_size = some (70000000 - fs.total_size) := by
    unfold u64Sub
    rw [if_pos h2]
  have hs2 : u64Sub 30000000 (70000000 - fs.total_size)
      = some (30000000 - (70000000 - fs.total_size)) := by
    unfold u64Sub
    rw [if_pos (by omega)]
  rw [hs1]
  simp only []
  rw [hs2]
  simp only []
  have hroot : decide (30000000 - (70000000 - fs.total_size) ≤ fs.total_size) = true := by
    simp only [decide_eq_true_eq]
    omega
  have hne := filter_dirs_by_size_ne_nil fs
    (fun size => decide (30000000 - (70000000 - fs.total_size) ≤ size)) hroot
  obtain ⟨x, xs, hl⟩ := List.exists_cons_of_ne_nil hne
  rw [hl]
  simp [List.min?]



/-- C9 witness: a two-node filesystem of total size exactly 40000000. -/
theorem claim9_witness :
    (solution_part2 ⟨0, ⟨[⟨DirectoryEntry.Directory "/", none, [1]⟩,
      ⟨DirectoryEntry.File "a" 40000000, some 0, []⟩]⟩⟩).isSome = true :=
  claim9_part2_no_panic _ (by decide) (by decide)

/-! ## Claim C2: the aggregation query refines the post-order specification -/

theorem Arena.childGt_all {a : Arena} (hcg : a.ChildGt) :
    ∀ d c, c ∈ (a.getNode d).children → d < c ∧ c < a.len := by
  intro d c hc
  rcases Nat.lt_or_ge d a.len with h | h
  · exact hcg d h c hc
  · rw [Arena.getNode_ge a h] at hc
    simp at hc

theorem specPostOrder_fuel {a : Arena} (hcg : a.ChildGt) :
    ∀ f1 f2 d, d < a.len → a.len - d ≤ f1 → a.len - d ≤ f2 →
      specPostOrder a f1 d = specPostOrder a f2 d := by
  intro f1
  induction f1 with
  | zero => intro f2 d hd h1 h2; omega
  | succ f1 ih =>
    intro f2 d hd h1 h2
    cases f2 with
    | zero => omega
    | succ f2 =>
      simp only [specPostOrder]
      congr 1
      apply List.flatMap_congr
      intro c hc
      obtain ⟨hdc, hcl⟩ := Arena.childGt_all hcg d c hc
      exact ih f2 c hcl (by omega) (by omega)

theorem specPostOrder_leaf {a : Arena} (hfl : a.FileLeaf) {c : Nat} (hc : c < a.len)
    (hdir : isDirAt a c = false) :
    ∀ f, 1 ≤ f → specPostOrder a f c = [c] := by
  intro f hf
  cases f with
  | zero => omega
  | succ f =>
    simp only [specPostOrder]
    rw [hfl c hc hdir]
    simp

theorem specPostOrder_succ {a : Arena} {d lx : Nat} (hlen : a.len = lx + 1) :
    specPostOrder a a.len d
      = ((a.getNode d).children.flatMap (specPostOrder a lx)) ++ [d] := by
  rw [hlen]
  simp only [specPostOrder]

theorem specAggSize_children {a : Arena} (hcg : a.ChildGt) (hfl : a.FileLeaf) :
    ∀ d, d < a.len → isDirAt a d = true →
      specAggSize a d = ((a.getNode d).children.map (fun c =>
        match (a.getNode c).entry with
        | DirectoryEntry.File _ s => s
        | DirectoryEntry.Directory _ => specAggSize a c)).sum := by
  intro d hd hdir
  obtain ⟨lx, hlen⟩ : ∃ lx, a.len = lx + 1 := ⟨a.len - 1, by omega⟩
  have hfsd : fileSizeAt a d = 0 := by
    unfold fileSizeAt entryFileSize
    unfold isDirAt at hdir
    split at hdir
    next he => rw [he]
    next he => cases hdir
  have hchild : ∀ c ∈ (a.getNode d).children,
      ((specPostOrder a lx c).map (fileSizeAt a)).sum
        = (fun c => match (a.getNode c).entry with
            | DirectoryEntry.File _ s => s
            | DirectoryEntry.Directory _ => specAggSize a c) c := by
    intro c hc
    obtain ⟨hdc, hcl⟩ := Arena.childGt_all hcg d c hc
    have hlx : 1 ≤ lx := by omega
    cases he : (a.getNode c).entry with
    | File nm s =>
      have hdirc : isDirAt a c = false := by unfold isDirAt; rw [he]
      rw [specPostOrder_leaf hfl hcl hdirc lx hlx]
      simp [fileSizeAt, entryFileSize, he]
    | Directory nm =>
      have hffix : specPostOrder a lx c = specPostOrder a a.len c :=
        specPostOrder_fuel hcg lx a.len c hcl (by omega) (by omega)
      simp only [he]
      rw [hffix]
      rfl
  unfold specAggSize
  rw [specPostOrder_succ hlen, List.map_append, List.sum_append,
    List.map_flatMap, List.flatMap_def, List.sum_flatten, List.map_map]
  simp only [List.map_singleton, List.sum_cons, List.sum_nil, hfsd, Nat.add_zero]
  exact congrArg List.sum (List.map_congr_left hchild)


theorem specDirsBySize_children {a : Arena} (hcg : a.ChildGt) (hfl : a.FileLeaf)
    (p : Nat → Bool) :
    ∀ d, d < a.len → isDirAt a d = true →
      specDirsBySize a p d
        = ((a.getNode d).children.flatMap (fun c =>
            match (a.getNode c).entry with
            | DirectoryEntry.File _ _ => []
            | DirectoryEntry.Directory _ => specDirsBySize a p c))
          ++ (if p (specAggSize a d) then [(nodeName a d, specAggSize a d)] else []) := by
  intro d hd hdir
  obtain ⟨lx, hlen⟩ : ∃ lx, a.len = lx + 1 := ⟨a.len - 1, by omega⟩
  have hchild : ∀ c ∈ (a.getNode d).children,
      (specPostOrder a lx c).filterMap (fun i =>
          if isDirAt a i && p (specAggSize a i) then some (nodeName a i, specAggSize a i)
          else none)
        = (fun c => match (a.getNode c).entry with
            | DirectoryEntry.File _ _ => ([] : List (String × Nat))
            | DirectoryEntry.Directory _ => specDirsBySize a p c) c := by
    intro c hc
    obtain ⟨hdc, hcl⟩ := Arena.childGt_all hcg d c hc
    have hlx : 1 ≤ lx := by omega
    cases he : (a.getNode c).entry with
    | File nm s =>
      have hdirc : isDirAt a c = false := by unfold isDirAt; rw [he]
      rw [specPostOrder_leaf hfl hcl hdirc lx hlx]
      simp only [he, List.filterMap_cons, hdirc, Bool.false_and, List.filterMap_nil]
      simp
    | Directory nm =>
      have hffix : specPostOrder a lx c = specPostOrder a a.len c :=
        specPostOrder_fuel hcg lx a.len c hcl (by omega) (by omega)
      simp only [he]
      rw [hffix]
      rfl
  unfold specDirsBySize
  rw [specPostOrder_succ hlen, List.filterMap_append, List.filterMap_flatMap]
  congr 1
  · exact List.flatMap_congr hchild
  · simp only [List.filterMap_cons, hdir, Bool.true_and, List.filterMap_nil]
    cases hp : p (specAggSize a d) with
    | false => simp
    | true => simp

theorem filterSubdirsAux_spec {a : Arena} (hcg : a.ChildGt) (hfl : a.FileLeaf)
    (p : Nat → Bool) :
    ∀ fuel d ds, d < a.len → isDirAt a d = true → a.len - d ≤ fuel →
      filterSubdirsAux a p fuel d ds = (specAggSize a d, ds ++ specDirsBySize a p d) := by
  intro fuel
  induction fuel with
  | zero => intro d ds hd hdir hf; omega
  | succ fuel ih =>
    intro d ds hd hdir hf
    have hfold : ∀ (cs : List Nat), (∀ c ∈ cs, d < c ∧ c < a.len) → ∀ (s0 : Nat) (ds0 : List (String × Nat)),
        cs.foldl (fun acc c => match (a.getNode c).entry with
          | DirectoryEntry.File _ fileSize => (acc.1 + fileSize, acc.2)
          | DirectoryEntry.Directory _ =>
            let r := filterSubdirsAux a p fuel c acc.2
            (acc.1 + r.1, r.2)) (s0, ds0)
        = (s0 + (cs.map (fun c => match (a.getNode c).entry with
            | DirectoryEntry.File _ s => s
            | DirectoryEntry.Directory _ => specAggSize a c)).sum,
           ds0 ++ (cs.flatMap (fun c => match (a.getNode c).entry with
            | DirectoryEntry.File _ _ => []
            | DirectoryEntry.Directory _ => specDirsBySize a p c))) := by
      intro cs
      induction cs with
      | nil => intro hmem s0 ds0; simp
      | cons c cs ihc =>
        intro hmem s0 ds0
        obtain ⟨hdc, hcl⟩ := hmem c (List.mem_cons_self c cs)
        simp only [List.foldl_cons]
        cases he : (a.getNode c).entry with
        | File nm s =>
          simp only [he]
          rw [ihc (fun x hx => hmem x (List.mem_cons_of_mem c hx)) (s0 + s) ds0]
          simp only [List.map_cons, List.sum_cons, List.flatMap_cons, he]
          simp [Nat.add_assoc]
        | Directory nm =>
          simp only [he]
          have hcdir : isDirAt a c = true := by unfold isDirAt; rw [he]
          rw [ih c ds0 hcl hcdir (by omega)]
          simp only []
          rw [ihc (fun x hx => hmem x (List.mem_cons_of_mem c hx))
            (s0 + specAggSize a c) (ds0 ++ specDirsBySize a p c)]
          simp only [List.map_cons, List.sum_cons, List.flatMap_cons, he]
          simp [Nat.add_assoc, List.append_assoc]
    simp only [filterSubdirsAux]
    rw [hfold (a.getNode d).children (fun c hc => Arena.childGt_all hcg d c hc) 0 ds]
    simp only [Nat.zero_add]
    rw [← specAggSize_children hcg hfl d hd hdir]
    rw [specDirsBySize_children hcg hfl p d hd hdir]
    cases hp : p (specAggSize a d) with
    | true => simp [hp, List.append_assoc, nodeName]
    | false => simp [hp]

/-- C2: for every frozen tree (child ids exceed parent ids, file nodes are
leaves, the queried root is a directory node in range) and every size
predicate `p`, `filter_dirs_by_size` returns exactly the
`(directoryName, aggregateSize)` pairs of the directory nodes — at any depth,
including the root — whose aggregate size satisfies `p`, in post-order
traversal order; and the recursive worker returns the node's aggregate size
(with the recorded pairs appended after the incoming accumulator) regardless
of whether the node itself was recorded. -/
theorem claim2_filter_dirs_refines_postorder :
    ∀ (fs : Filesystem) (p : Nat → Bool),
      fs.arena.ChildGt → fs.arena.FileLeaf →
      fs.root < fs.arena.len → isDirAt fs.arena fs.root = true →
      fs.filter_dirs_by_size p = specDirsBySize fs.arena p fs.root ∧
      (∀ fuel d ds, d < fs.arena.len → isDirAt fs.arena d = true →
        fs.arena.len - d ≤ fuel →
        filterSubdirsAux fs.arena p fuel d ds
          = (specAggSize fs.arena d, ds ++ specDirsBySize fs.arena p d)) := by
  intro fs p hcg hfl hroot hdir
  refine ⟨?_, filterSubdirsAux_spec hcg hfl p⟩
  unfold Filesystem.filter_dirs_by_size
  rw [filterSubdirsAux_spec hcg hfl p (fs.arena.len + 1) fs.root [] hroot hdir (by omega)]
  simp

/-- C2 witness: the root-only arena with the always-true predicate. -/
theorem claim2_witness :
    (Filesystem.mk 0 initArena).filter_dirs_by_size (fun _ => true)
      = specDirsBySize initArena (fun _ => true) 0 :=
  (claim2_filter_dirs_refines_postorder ⟨0, initArena⟩ (fun _ => true)
    (by decide) (by decide) (by decide) (by rfl)).1

/-! ## Claim C3: the tree total invariant -/

theorem count_flatMap_sum (l : List Nat) (f : Nat → List Nat) (q : Nat) :
    ((l.flatMap f).count q) = (l.map (fun x => (f x).count q)).sum := by
  induction l with
  | nil => simp
  | cons x l ih => simp [List.flatMap_cons, List.count_append, ih]

theorem sum_map_add (l : List Nat) (f g : Nat → Nat) :
    (l.map (fun x => f x + g x)).sum = (l.map f).sum + (l.map g).sum := by
  induction l with
  | nil => simp
  | cons x l ih => simp [ih]; omega

theorem specPostOrder_of_children_nil {a : Arena} {d : Nat}
    (h : (a.getNode d).children = []) {f : Nat} (hf : 1 ≤ f) :
    specPostOrder a f d = [d] := by
  cases f with
  | zero => omega
  | succ f => simp [specPostOrder, h]

theorem specPostOrder_mem_lt {a : Arena} (hcg : a.ChildGt) :
    ∀ f d, d < a.len → ∀ i ∈ specPostOrder a f d, i < a.len ∧ d ≤ i := by
  intro f
  induction f with
  | zero => intro d hd i hi; simp [specPostOrder] at hi
  | succ f ih =>
    intro d hd i hi
    simp only [specPostOrder, List.mem_append, List.mem_flatMap, List.mem_singleton] at hi
    rcases hi with ⟨c, hc, hic⟩ | rfl
    · obtain ⟨hdc, hcl⟩ := Arena.childGt_all hcg d c hc
      obtain ⟨h1, h2⟩ := ih c hcl i hic
      exact ⟨h1, by omega⟩
    · exact ⟨hd, Nat.le_refl _⟩

theorem count_singleton_eq (x y : Nat) : List.count y [x] = if x = y then 1 else 0 := by
  by_cases h : x = y
  · subst h; simp
  · simp [List.count_cons, h]

theorem specPostOrder_appendNew_count {a : Arena} {p : Nat} (e : DirectoryEntry)
    (hcg : a.ChildGt) (hp : p < a.len) :
    ∀ f d q, d < a.len → a.len + 1 - d ≤ f →
      (specPostOrder (a.appendNew p e) f d).count q
        = (specPostOrder a f d).count q
          + (if q = a.len then (specPostOrder a f d).count p else 0) := by
  intro f
  induction f with
  | zero => intro d q hd hf; omega
  | succ f ih =>
    intro d q hd hf
    have hn1 : 1 ≤ f := by omega
    have hch := (Arena.getNode_appendNew_entry e hp hd).2.2
    have hlt : specPostOrder (a.appendNew p e) f a.len = [a.len] := by
      apply specPostOrder_of_children_nil
      · rw [Arena.getNode_appendNew_new e hp]
      · exact hn1
    have hdn : d ≠ a.len := by omega
    by_cases hq : q = a.len
    · subst hq
      have hkids : ∀ c ∈ (a.getNode d).children,
          (fun x => (specPostOrder (a.appendNew p e) f x).count a.len) c
            = (fun x => (specPostOrder a f x).count a.len
                + (specPostOrder a f x).count p) c := by
        intro c hc
        obtain ⟨hdc, hcl⟩ := Arena.childGt_all hcg d c hc
        have h2 := ih c a.len hcl (by omega)
        simpa using h2
      simp only [if_pos rfl]
      by_cases hdp : d = p
      · rw [if_pos hdp] at hch
        simp only [specPostOrder, hch, List.flatMap_append, List.count_append,
          List.flatMap_cons, List.flatMap_nil, List.append_nil, hlt]
        rw [count_flatMap_sum, count_flatMap_sum, count_flatMap_sum]
        rw [List.map_congr_left hkids, sum_map_add]
        simp only [count_singleton_eq]
        simp [hdn, hdp]
        omega
      · rw [if_neg hdp] at hch
        simp only [specPostOrder, hch, List.append_nil, List.count_append]
        rw [count_flatMap_sum, count_flatMap_sum, count_flatMap_sum]
        rw [List.map_congr_left hkids, sum_map_add]
        simp only [count_singleton_eq]
        simp [hdn, hdp]
    · have hkids : ∀ c ∈ (a.getNode d).children,
          (fun x => (specPostOrder (a.appendNew p e) f x).count q) c
            = (fun x => (specPostOrder a f x).count q) c := by
        intro c hc
        obtain ⟨hdc, hcl⟩ := Arena.childGt_all hcg d c hc
        have h2 := ih c q hcl (by omega)
        simpa [hq] using h2
      simp only [if_neg hq]
      by_cases hdp : d = p
      · rw [if_pos hdp] at hch
        simp only [specPostOrder, hch, List.flatMap_append, List.count_append,
          List.flatMap_cons, List.flatMap_nil, List.append_nil, hlt]
        rw [count_flatMap_sum, count_flatMap_sum]
        rw [List.map_congr_left hkids]
        simp only [count_singleton_eq]
        have hnq : a.len ≠ q := fun h => hq h.symm
        simp [hnq]
      · rw [if_neg hdp] at hch
        simp only [specPostOrder, hch, List.append_nil, List.count_append]
        rw [count_flatMap_sum, count_flatMap_sum]
        rw [List.map_congr_left hkids]
        omega

theorem arenaFileSum_appendNew {a : Arena} {p : Nat} (e : DirectoryEntry) (hp : p < a.len) :
    arenaFileSum (a.appendNew p e) = arenaFileSum a + entryFileSize e := by
  unfold arenaFileSum
  rw [Arena.appendNew_len, List.range_succ, List.map_append, List.sum_append]
  have h1 : ∀ i ∈ List.range a.len, fileSizeAt (a.appendNew p e) i = fileSizeAt a i := by
    intro i hi
    rw [List.mem_range] at hi
    unfold fileSizeAt
    rw [(Arena.getNode_appendNew_entry e hp hi).1]
  rw [List.map_congr_left h1]
  simp only [List.map_cons, List.map_nil, List.sum_cons, List.sum_nil]
  have h2 : fileSizeAt (a.appendNew p e) a.len = entryFileSize e := by
    unfold fileSizeAt
    rw [Arena.getNode_appendNew_new e hp]
  rw [h2]
  omega

theorem cntInv_init : CntInv initArena := by
  intro q hq
  have h1 : initArena.len = 1 := rfl
  have hq0 : q = 0 := by omega
  subst hq0
  decide

theorem cntInv_appendNew {a : Arena} {cur : Nat} (e : DirectoryEntry)
    (hinv : BInv a cur) (hcnt : CntInv a) : CntInv (a.appendNew cur e) := by
  intro q hq
  rw [Arena.appendNew_len] at hq
  have hlen0 : 0 < a.len := hinv.len_pos
  rw [Arena.appendNew_len]
  rw [specPostOrder_appendNew_count e hinv.cg hinv.cur_lt (a.len + 1) 0 q hlen0 (by omega)]
  have hfuel : specPostOrder a (a.len + 1) 0 = specPostOrder a a.len 0 :=
    specPostOrder_fuel hinv.cg (a.len + 1) a.len 0 hlen0 (by omega) (by omega)
  rw [hfuel]
  by_cases hq2 : q = a.len
  · subst hq2
    rw [if_pos rfl]
    have hzero : (specPostOrder a a.len 0).count a.len = 0 := by
      rw [List.count_eq_zero]
      intro hmem
      have := (specPostOrder_mem_lt hinv.cg a.len 0 hlen0 a.len hmem).1
      omega
    rw [hzero, hcnt cur hinv.cur_lt]
  · rw [if_neg hq2]
    have := hcnt q (by omega)
    omega

theorem binv_cnt_foldl_lsEntry (es : List DirectoryEntry) :
    ∀ a cur, BInv a cur → CntInv a →
      CntInv (es.foldl lsEntry (a, cur)).1 ∧
      arenaFileSum (es.foldl lsEntry (a, cur)).1
        = arenaFileSum a + (es.map entryFileSize).sum := by
  induction es with
  | nil => intro a cur hinv hcnt; exact ⟨hcnt, by simp⟩
  | cons e es ih =>
    intro a cur hinv hcnt
    rw [List.foldl_cons, lsEntry_eq]
    have hstep := arenaFileSum_appendNew e hinv.cur_lt
    obtain ⟨h1, h2⟩ := ih (a.appendNew cur e) cur (binv_lsEntry e hinv) (cntInv_appendNew e hinv hcnt)
    refine ⟨h1, ?_⟩
    rw [h2, hstep]
    simp [Nat.add_assoc]

theorem cntInv_buildStep {st st2 : Arena × Nat} {c : Command}
    (hinv : BInv st.1 st.2) (hcnt : CntInv st.1)
    (hs : buildStep st c = some st2) :
    CntInv st2.1 ∧ arenaFileSum st2.1 = arenaFileSum st.1 + lsCmdFileSum c := by
  cases c with
  | Cd dir => ?_
  | Ls es => ?_
  case Ls =>
    injection hs with hs
    rw [← hs]
    obtain ⟨h1, h2⟩ := binv_cnt_foldl_lsEntry es st.1 st.2 hinv hcnt
    exact ⟨h1, by rw [h2]; rfl⟩
  cases dir with
  | Root =>
    injection hs with hs
    rw [← hs]
    exact ⟨hcnt, by simp [lsCmdFileSum]⟩
  | Parent =>
    simp only [buildStep] at hs
    split at hs
    next p hp =>
      injection hs with hs
      rw [← hs]
      exact ⟨hcnt, by simp [lsCmdFileSum]⟩
    next => cases hs
  | Child nm =>
    simp only [buildStep] at hs
    split at hs
    next c2 hfind =>
      injection hs with hs
      rw [← hs]
      exact ⟨hcnt, by simp [lsCmdFileSum]⟩
    next =>
      injection hs with hs
      rw [← hs]
      exact ⟨hcnt, by simp [lsCmdFileSum]⟩

theorem replay_sum :
    ∀ (cmds : List Command) (st st2 : Arena × Nat), BInv st.1 st.2 → CntInv st.1 →
      replay st cmds = some st2 →
      BInv st2.1 st2.2 ∧ CntInv st2.1 ∧
        arenaFileSum st2.1 = arenaFileSum st.1 + lsFileSum cmds := by
  intro cmds
  induction cmds with
  | nil =>
    intro st st2 hinv hcnt hr
    injection hr with hr
    rw [← hr]
    exact ⟨hinv, hcnt, by simp [lsFileSum]⟩
  | cons c cs ih =>
    intro st st2 hinv hcnt hr
    unfold replay at hr
    split at hr
    next st3 hstep =>
      obtain ⟨h1, h2⟩ := cntInv_buildStep hinv hcnt hstep
      obtain ⟨h3, h4, h5⟩ := ih st3 st2 (binv_buildStep hinv hstep) h1 hr
      refine ⟨h3, h4, ?_⟩
      rw [h5, h2]
      have : lsFileSum (c :: cs) = lsCmdFileSum c + lsFileSum cs := by
        simp [lsFileSum, lsCmdFileSum]
      rw [this]
      omega
    next => cases hr

theorem specAggSize_eq_arenaFileSum {a : Arena} (hcg : a.ChildGt) (hcnt : CntInv a)
    (hlen : 0 < a.len) :
    specAggSize a 0 = arenaFileSum a := by
  have hperm : (specPostOrder a a.len 0).Perm (List.range a.len) := by
    rw [List.perm_iff_count]
    intro q
    by_cases hq : q < a.len
    · rw [hcnt q hq]
      rw [List.count_eq_one_of_mem (List.nodup_range a.len) (List.mem_range.mpr hq)]
    · rw [List.count_eq_zero.mpr, List.count_eq_zero.mpr]
      · intro hmem
        rw [List.mem_range] at hmem
        exact hq hmem
      · intro hmem
        exact hq (specPostOrder_mem_lt hcg a.len 0 hlen q hmem).1
  exact (hperm.map (fileSizeAt a)).sum_eq

/-- C3: for every tree produced by replaying a command sequence obtained
from the parser, the root's aggregate size as computed by `total_size`
equals the sum of the sizes of every `File` entry appended during
construction (the entries of the replayed `ls` commands), independent of how
the files are nested in directories. -/
theorem claim3_total_size_is_appended_file_sum :
    ∀ (input : String) (fs : Filesystem), Filesystem.parse input = some fs →
      fs.total_size = lsFileSum (parseCommands input.toList) := by
  intro input fs hp
  unfold Filesystem.parse at hp
  cases hr : replay (initArena, 0) (parseCommands input.toList) with
  | none => rw [hr] at hp; cases hp
  | some st =>
    rw [hr] at hp
    have hp2 : some (Filesystem.mk 0 st.1) = some fs := hp
    injection hp2 with hp
    obtain ⟨hinv, hcnt, hsum⟩ := replay_sum _ _ _ binv_init cntInv_init hr
    have hspec := filterSubdirsAux_spec hinv.cg hinv.file_leaf (fun _ => false)
      (st.1.len + 1) 0 [] hinv.len_pos hinv.root_dir (by omega)
    have htot : fs.total_size = specAggSize st.1 0 := by
      rw [← hp]
      unfold Filesystem.total_size
      simp only []
      rw [hspec]
    rw [htot, specAggSize_eq_arenaFileSum hinv.cg hcnt hinv.len_pos, hsum]
    have hinit : arenaFileSum initArena = 0 := by decide
    rw [hinit]
    omega

/-- C3 witness: one `ls` appending two files of sizes 5 and 3. -/
theorem claim3_witness :
    (Filesystem.mk 0 ⟨[⟨DirectoryEntry.Directory "/", none, [1, 2]⟩,
        ⟨DirectoryEntry.File "a" 5, some 0, []⟩,
        ⟨DirectoryEntry.File "b" 3, some 0, []⟩]⟩).total_size
      = lsFileSum (parseCommands ("$ ls\n5 a\n3 b\n".toList)) :=
  claim3_total_size_is_appended_file_sum "$ ls\n5 a\n3 b\n" _ (by rfl)

end Day7
